import Mathlib

/-!
Shallow embedding of the SOP (sum-of-products) checker `checker.py` from the
SOP-evaluator repository, together with proofs of the specification claims.

Strings are modelled as `List Char`, Python sets read from the spec file as
`List Nat` (deduplicated where relevant), Python's ambient random stream as an
explicit function `rnd : Nat → Nat` consumed at an explicit position, and
exceptions as `Except String`.
-/

namespace SopChecker

/-- Whitespace as recognized by Python `str.strip` (ASCII subset). -/
def isPySpace (c : Char) : Bool :=
  c = ' ' || c = '\t' || c = '\n' || c = '\r' || c = '\x0b' || c = '\x0c'

/-- Embedding of Python `ln.strip()`: drop leading and trailing whitespace. -/
def pyStrip (s : List Char) : List Char :=
  ((s.dropWhile isPySpace).reverse.dropWhile isPySpace).reverse

/-- Embedding of `read_sop_file` (checker.py lines 14-24): strip each line; a
blank line is recorded as the empty implicant when `n_bit = 0` and skipped
otherwise; non-blank lines are recorded stripped. -/
def read_sop_file : List (List Char) → Nat → List (List Char)
  | [], _ => []
  | ln :: rest, n_bit =>
    let line := pyStrip ln
    if line = [] then
      if n_bit = 0 then [] :: read_sop_file rest n_bit
      else read_sop_file rest n_bit
    else line :: read_sop_file rest n_bit

/-- Characters legal inside an implicant. -/
def validChar (c : Char) : Bool :=
  c = '0' || c = '1' || c = '-'

/-- Embedding of `validate_implicant` (checker.py lines 26-35); raising
`ValueError` becomes returning `Except.error`. -/
def validate_implicant (impl : List Char) (n_bit : Nat) : Except String Unit :=
  if n_bit = 0 then
    if impl = [] then Except.ok ()
    else Except.error "for n-bit=0, implicant must be an empty string."
  else if impl.length ≠ n_bit then
    Except.error ("implicant length error: " ++ String.mk impl)
  else if impl.all validChar then Except.ok ()
  else Except.error ("illegal character in implicant: " ++ String.mk impl)

/-- The validation loop of `main` (checker.py lines 92-93): fail on the first
invalid implicant. -/
def validate_all : List (List Char) → Nat → Except String Unit
  | [], _ => Except.ok ()
  | impl :: rest, n_bit =>
    match validate_implicant impl n_bit with
    | Except.error e => Except.error e
    | Except.ok _ => validate_all rest n_bit

/-- The accumulation of `base_val` in `iter_implicant_minterms` (checker.py
lines 41-46): OR together `2 ^ (n_bit - 1 - i)` for every position `i`
holding character '1'.  `i` is the index of the head of the remaining list. -/
def base_val : List Char → Nat → Nat → Nat
  | [], _, _ => 0
  | ch :: rest, n_bit, i =>
    (if ch = '1' then 2 ^ (n_bit - 1 - i) else 0) ||| base_val rest n_bit (i + 1)

/-- The accumulation of `free_positions` in `iter_implicant_minterms`
(checker.py lines 42-48): bit positions `n_bit - 1 - i` of the '-' characters,
in string order. -/
def free_positions : List Char → Nat → Nat → List Nat
  | [], _, _ => []
  | ch :: rest, n_bit, i =>
    (if ch = '-' then [n_bit - 1 - i] else []) ++ free_positions rest n_bit (i + 1)

/-- The inner while loop of `iter_implicant_minterms` (checker.py lines 51-58):
starting from `base`, OR in `2 ^ p` for the `j`-th free position `p` whenever
bit `j` of `mask` is set, consuming `mask` bit by bit. -/
def applyMask : Nat → List Nat → Nat → Nat
  | base, [], _ => base
  | base, p :: rest, mask =>
    applyMask (if mask % 2 = 1 then base ||| 2 ^ p else base) rest (mask / 2)

/-- Embedding of `iter_implicant_minterms` (checker.py lines 37-59), with the
lazy generator materialized as the list of yielded values in yield order. -/
def iter_implicant_minterms (impl : List Char) (n_bit : Nat) : List Nat :=
  if n_bit = 0 then [0]
  else
    (List.range (2 ^ (free_positions impl n_bit 0).length)).map
      (applyMask (base_val impl n_bit 0) (free_positions impl n_bit 0))

/-- Embedding of `reservoir_add` (checker.py lines 61-69).  The ambient
`random.randint(1, total_seen)` becomes a draw from the stream `rnd` at
position `pos`, reduced into the range `[1, total_seen]`; the returned `Nat`
is the next unread stream position. -/
def reservoir_add (rnd : Nat → Nat) (pos : Nat) (sample : List α) (k total_seen : Nat)
    (item : α) : List α × Nat :=
  if k = 0 then (sample, pos)
  else if total_seen ≤ k then (sample ++ [item], pos)
  else
    let j := rnd pos % total_seen + 1
    if j ≤ k then (sample.set (j - 1) item, pos + 1) else (sample, pos + 1)

/-- Inner loop of `count_literals` (checker.py lines 73-76) with accumulator. -/
def count_literals_chars : List Char → Nat → Nat
  | [], c => c
  | ch :: rest, c =>
    count_literals_chars rest (if ch = '0' || ch = '1' then c + 1 else c)

/-- Outer loop of `count_literals` (checker.py lines 71-77). -/
def count_literals_go : List (List Char) → Nat → Nat
  | [], c => c
  | impl :: rest, c => count_literals_go rest (count_literals_chars impl c)

/-- Embedding of `count_literals` (checker.py lines 71-77): number of '0' and
'1' characters across all implicants. -/
def count_literals (implicants : List (List Char)) : Nat :=
  count_literals_go implicants 0

/-- Lookup in the embedding of the Python dict `seen` (association list,
newest binding first; keys are inserted at most once). -/
def dictLookup (key : List Char) : List (List Char × Nat) → Option Nat
  | [] => none
  | (key2, v) :: rest => if key = key2 then some v else dictLookup key rest

/-- Duplicate-detection loop of `main` (checker.py lines 99-109).  Sample
items keep the data of the formatted string: (first line, current line,
implicant text).  Returns (dup_count, dup_sample, next stream position). -/
def dup_loop (rnd : Nat → Nat) (k : Nat) :
    List (List Char) → Nat → List (List Char × Nat) → Nat →
    List (Nat × Nat × List Char) → Nat → Nat × List (Nat × Nat × List Char) × Nat
  | [], _, _, dup_count, dup_sample, pos => (dup_count, dup_sample, pos)
  | impl :: rest, idx, seen, dup_count, dup_sample, pos =>
    match dictLookup impl seen with
    | some first =>
      let dc := dup_count + 1
      let r := reservoir_add rnd pos dup_sample k dc (first, idx, impl)
      dup_loop rnd k rest (idx + 1) seen dc r.1 r.2
    | none => dup_loop rnd k rest (idx + 1) ((impl, idx) :: seen) dup_count dup_sample pos

/-- Per-minterm classification loop of `main` (checker.py lines 117-122):
a minterm in the on-set is marked covered; otherwise, when outside
`union_allowed`, it is an off-set hit (counted and sampled).  Returns
(covered, off_hit_count, off_hit_sample, next stream position). -/
def cov_inner (rnd : Nat → Nat) (k : Nat) (on_set union_allowed : List Nat) :
    List Nat → List Nat → Nat → List Nat → Nat →
    List Nat × Nat × List Nat × Nat
  | [], covered, off, sample, pos => (covered, off, sample, pos)
  | m :: rest, covered, off, sample, pos =>
    if m ∈ on_set then
      cov_inner rnd k on_set union_allowed rest (covered.insert m) off sample pos
    else if m ∈ union_allowed then
      cov_inner rnd k on_set union_allowed rest covered off sample pos
    else
      let off2 := off + 1
      let r := reservoir_add rnd pos sample k off2 m
      cov_inner rnd k on_set union_allowed rest covered off2 r.1 r.2

/-- Per-implicant coverage loop of `main` (checker.py lines 116-122). -/
def cov_loop (rnd : Nat → Nat) (k n_bit : Nat) (on_set union_allowed : List Nat) :
    List (List Char) → List Nat → Nat → List Nat → Nat →
    List Nat × Nat × List Nat × Nat
  | [], covered, off, sample, pos => (covered, off, sample, pos)
  | impl :: rest, covered, off, sample, pos =>
    let r := cov_inner rnd k on_set union_allowed
      (iter_implicant_minterms impl n_bit) covered off sample pos
    cov_loop rnd k n_bit on_set union_allowed rest r.1 r.2.1 r.2.2.1 r.2.2.2

/-- Uncovered-count loop of `main` when sampling is on (checker.py lines
126-130).  Returns (uncovered_count, uncovered_sample, next position). -/
def unc_loop_sampled (rnd : Nat → Nat) (k : Nat) :
    List Nat → List Nat → Nat → List Nat → Nat → Nat × List Nat × Nat
  | [], _, cnt, sample, pos => (cnt, sample, pos)
  | m :: rest, covered, cnt, sample, pos =>
    if m ∈ covered then unc_loop_sampled rnd k rest covered cnt sample pos
    else
      let cnt2 := cnt + 1
      let r := reservoir_add rnd pos sample k cnt2 m
      unc_loop_sampled rnd k rest covered cnt2 r.1 r.2

/-- Uncovered-count loop of `main` when sampling is off (checker.py lines
131-134). -/
def unc_loop_plain : List Nat → List Nat → Nat → Nat
  | [], _, cnt => cnt
  | m :: rest, covered, cnt =>
    if m ∈ covered then unc_loop_plain rest covered cnt
    else unc_loop_plain rest covered (cnt + 1)

/-- The filtering of `main` line 114: strip each implicant again and keep the
truthy (non-empty) ones. -/
def valid_implicants (impls : List (List Char)) : List (List Char) :=
  (impls.map pyStrip).filter (fun s => !s.isEmpty)

/-- The guarded coverage phase of `main` (checker.py lines 111-122): the loop
body runs only when `valid_implicants` is non-empty. -/
def cov_result (rnd : Nat → Nat) (k n_bit : Nat) (on_set union_allowed : List Nat)
    (impls : List (List Char)) (pos : Nat) : List Nat × Nat × List Nat × Nat :=
  if valid_implicants impls = [] then ([], 0, [], pos)
  else cov_loop rnd k n_bit on_set union_allowed (valid_implicants impls) [] 0 [] pos

/-- The uncovered-count phase of `main` (checker.py lines 124-134): the
sampled loop when `k > 0`, the plain counting loop otherwise. -/
def unc_result (rnd : Nat → Nat) (k : Nat) (on_set covered : List Nat) (pos : Nat) :
    Nat × List Nat × Nat :=
  if 0 < k then unc_loop_sampled rnd k on_set covered 0 [] pos
  else (unc_loop_plain on_set covered 0, [], pos)

/-- The verdict data computed by `main` (checker.py lines 95-136). -/
structure Verdict where
  lit_count : Nat
  fail_literal_product : Bool
  dup_count : Nat
  dup_sample : List (Nat × Nat × List Char)
  covered_on : List Nat
  off_hit_count : Nat
  off_hit_sample : List Nat
  uncovered_count : Nat
  uncovered_sample : List Nat
  passed : Bool

/-- The check pipeline of `main` (checker.py lines 88-136) after parsing and
validation: literal bound, duplicate detection, coverage and off-set
classification, uncovered count, and the overall pass flag. -/
def run_checks (rnd : Nat → Nat) (n_bit : Nat) (on_set dc_set : List Nat)
    (implicants : List (List Char)) (k : Nat) : Verdict :=
  let union_allowed := on_set ++ dc_set
  let lit_count := count_literals implicants
  let literal_product_expect := on_set.length * n_bit
  let fail_literal_product :=
    decide (0 < n_bit) && decide (0 < on_set.length) &&
      decide (literal_product_expect ≤ lit_count)
  let d := dup_loop rnd k implicants 0 [] 0 [] 0
  let c := cov_result rnd k n_bit on_set union_allowed implicants d.2.2
  let u := unc_result rnd k on_set c.1 c.2.2.2
  let passed :=
    decide (d.1 = 0) && decide (u.1 = 0) && decide (c.2.1 = 0) && !fail_literal_product
  { lit_count := lit_count
    fail_literal_product := fail_literal_product
    dup_count := d.1
    dup_sample := d.2.1
    covered_on := c.1
    off_hit_count := c.2.1
    off_hit_sample := c.2.2.1
    uncovered_count := u.1
    uncovered_sample := u.2.1
    passed := passed }

/-- Embedding of `main` up to the verdict (checker.py lines 88-136): read the
SOP lines, validate every implicant fail-fast, then run the checks. -/
def run_main (rnd : Nat → Nat) (n_bit : Nat) (on_set dc_set : List Nat)
    (lines : List (List Char)) (k : Nat) : Except String Verdict :=
  let implicants := read_sop_file lines n_bit
  match validate_all implicants n_bit with
  | Except.error e => Except.error e
  | Except.ok _ => Except.ok (run_checks rnd n_bit on_set dc_set implicants k)

/-- The terse line printed in quiet mode (checker.py lines 138-143). -/
def quiet_output (v : Verdict) : String :=
  if v.passed then "PASS " ++ Nat.repr v.lit_count else "FAIL"

/-- Embedding of a quiet-mode process run including the top-level exception
handler (checker.py lines 199-204): result is (stdout lines, exit code); on a
validation error nothing reaches stdout and the exit code is 1. -/
def run_quiet (rnd : Nat → Nat) (n_bit : Nat) (on_set dc_set : List Nat)
    (lines : List (List Char)) (k : Nat) : List String × Nat :=
  match run_main rnd n_bit on_set dc_set lines k with
  | Except.error _ => ([], 1)
  | Except.ok v => ([quiet_output v], 0)

/-- The lines printed in summary mode (checker.py lines 145-151). -/
def summary_output (n_bit : Nat) (on_set dc_set : List Nat)
    (implicants : List (List Char)) (v : Verdict) : List String :=
  ["bit width: " ++ Nat.repr n_bit,
   "on-set size: " ++ Nat.repr on_set.length,
   "dc-set size: " ++ Nat.repr dc_set.length,
   "SOP implicants: " ++ Nat.repr implicants.length,
   "SOP literals: " ++ Nat.repr v.lit_count,
   if v.passed then "result: PASS" else "result: FAIL"]

/-- Mathematical cube of an implicant: the integers below `2 ^ n_bit` whose
bits agree with every fixed '0'/'1' position of the string, position 0 of the
string being the most significant bit. -/
def inCube (impl : List Char) (n_bit : Nat) (v : Nat) : Prop :=
  v < 2 ^ n_bit ∧ ∀ i, (h : i < impl.length) →
    (impl.get ⟨i, h⟩ = '1' → v.testBit (n_bit - 1 - i) = true) ∧
    (impl.get ⟨i, h⟩ = '0' → v.testBit (n_bit - 1 - i) = false)

/-- Inverse of `applyMask`: read back the mask from a value, one bit per free
position. -/
def extractMask (v : Nat) : List Nat → Nat
  | [] => 0
  | p :: rest => (if v.testBit p then 1 else 0) + 2 * extractMask v rest

/-- Randomness-free companion of `dup_loop`: the duplicate count as a function
of the remaining implicants and the keys already seen. -/
def dup_count_pure : List (List Char) → List (List Char) → Nat
  | [], _ => 0
  | impl :: rest, keys =>
    if impl ∈ keys then dup_count_pure rest keys + 1
    else dup_count_pure rest (impl :: keys)

/-- Randomness-free companion of `cov_inner`: covered set and off-set hit
count over the minterms of one implicant. -/
def cov_inner_pure (on_set union_allowed : List Nat) :
    List Nat → List Nat → Nat → List Nat × Nat
  | [], covered, off => (covered, off)
  | m :: rest, covered, off =>
    if m ∈ on_set then cov_inner_pure on_set union_allowed rest (covered.insert m) off
    else if m ∈ union_allowed then cov_inner_pure on_set union_allowed rest covered off
    else cov_inner_pure on_set union_allowed rest covered (off + 1)

/-- Randomness-free companion of `cov_loop`. -/
def cov_loop_pure (n_bit : Nat) (on_set union_allowed : List Nat) :
    List (List Char) → List Nat → Nat → List Nat × Nat
  | [], covered, off => (covered, off)
  | impl :: rest, covered, off =>
    let r := cov_inner_pure on_set union_allowed
      (iter_implicant_minterms impl n_bit) covered off
    cov_loop_pure n_bit on_set union_allowed rest r.1 r.2

/-! Lemmas about `free_positions` and `base_val`. -/

lemma free_positions_mem (impl : List Char) (n : Nat) :
    ∀ i q, q ∈ free_positions impl n i ↔
      ∃ j, ∃ h : j < impl.length, impl.get ⟨j, h⟩ = '-' ∧ q = n - 1 - (i + j) := by
  induction impl with
  | nil => intro i q; simp [free_positions]
  | cons ch rest ih =>
    intro i q
    simp only [free_positions, List.mem_append]
    constructor
    · rintro (hq | hq)
      · by_cases hch : ch = '-'
        · simp [hch] at hq
          exact ⟨0, Nat.succ_pos _, by simpa using hch, by omega⟩
        · simp [hch] at hq
      · rcases (ih (i + 1) q).mp hq with ⟨j, hj, hc, he⟩
        refine ⟨j + 1, by simpa using Nat.succ_lt_succ hj, by simpa using hc, ?_⟩
        omega
    · rintro ⟨j, hj, hc, he⟩
      cases j with
      | zero =>
        left
        simp only [List.get] at hc
        simp [hc]
        omega
      | succ j2 =>
        right
        refine (ih (i + 1) q).mpr ⟨j2, by simpa using Nat.lt_of_succ_lt_succ hj, ?_, by omega⟩
        simpa using hc

lemma free_positions_length (impl : List Char) (n : Nat) :
    ∀ i, (free_positions impl n i).length = impl.countP (fun c => decide (c = '-')) := by
  induction impl with
  | nil => intro i; simp [free_positions]
  | cons ch rest ih =>
    intro i
    by_cases hch : ch = '-' <;>
      simp [free_positions, hch, ih (i + 1), List.countP_cons]

lemma free_positions_pairwise (impl : List Char) (n : Nat) :
    ∀ i, i + impl.length ≤ n → (free_positions impl n i).Pairwise (· > ·) := by
  induction impl with
  | nil => intro i _; simp [free_positions]
  | cons ch rest ih =>
    intro i hle
    simp only [List.length_cons] at hle
    have hrest := ih (i + 1) (by omega)
    by_cases hch : ch = '-'
    · simp only [free_positions, hch, if_pos rfl, List.singleton_append]
      refine List.Pairwise.cons ?_ hrest
      intro q hq
      rcases (free_positions_mem rest n (i + 1) q).mp hq with ⟨j, hj, _, he⟩
      omega
    · simpa [free_positions, hch] using hrest

lemma free_positions_nodup (impl : List Char) (n i : Nat) (hle : i + impl.length ≤ n) :
    (free_positions impl n i).Nodup :=
  (free_positions_pairwise impl n i hle).imp fun h => Nat.ne_of_gt h

lemma free_positions_mem_lt (impl : List Char) (n i q : Nat) (hle : i + impl.length ≤ n)
    (hq : q ∈ free_positions impl n i) : q < n := by
  rcases (free_positions_mem impl n i q).mp hq with ⟨j, hj, _, he⟩
  omega

lemma base_val_testBit (impl : List Char) (n : Nat) :
    ∀ i q, (base_val impl n i).testBit q = true ↔
      ∃ j, ∃ h : j < impl.length, impl.get ⟨j, h⟩ = '1' ∧ q = n - 1 - (i + j) := by
  induction impl with
  | nil => intro i q; simp [base_val]
  | cons ch rest ih =>
    intro i q
    simp only [base_val, Nat.testBit_or, Bool.or_eq_true]
    constructor
    · rintro (hq | hq)
      · by_cases hch : ch = '1'
        · simp [hch, Nat.testBit_two_pow] at hq
          exact ⟨0, Nat.succ_pos _, by simpa using hch, by omega⟩
        · simp [hch] at hq
      · rcases (ih (i + 1) q).mp hq with ⟨j, hj, hc, he⟩
        refine ⟨j + 1, by simpa using Nat.succ_lt_succ hj, by simpa using hc, ?_⟩
        omega
    · rintro ⟨j, hj, hc, he⟩
      cases j with
      | zero =>
        left
        simp only [List.get] at hc
        simp [hc, Nat.testBit_two_pow]
        omega
      | succ j2 =>
        right
        refine (ih (i + 1) q).mpr ⟨j2, by simpa using Nat.lt_of_succ_lt_succ hj, ?_, by omega⟩
        simpa using hc

lemma base_val_lt (impl : List Char) (n : Nat) (hn : 0 < n) :
    ∀ i, base_val impl n i < 2 ^ n := by
  induction impl with
  | nil => intro i; simpa [base_val] using Nat.pos_pow_of_pos n (by omega)
  | cons ch rest ih =>
    intro i
    refine Nat.or_lt_two_pow ?_ (ih (i + 1))
    by_cases hch : ch = '1'
    · simp only [hch, if_pos rfl]
      exact Nat.pow_lt_pow_right (by omega) (by omega)
    · simpa [hch] using Nat.pos_pow_of_pos n (by omega)

/-! Lemmas about `applyMask` and `extractMask`. -/

lemma applyMask_cons (base p : Nat) (rest : List Nat) (mask : Nat) :
    applyMask base (p :: rest) mask =
      applyMask (if mask % 2 = 1 then base ||| 2 ^ p else base) rest (mask / 2) := rfl

lemma applyMask_testBit (free : List Nat) :
    ∀ base mask q, (applyMask base free mask).testBit q = true ↔
      base.testBit q = true ∨
        ∃ j, ∃ h : j < free.length, free.get ⟨j, h⟩ = q ∧ mask.testBit j = true := by
  induction free with
  | nil => intro base mask q; simp [applyMask]
  | cons p rest ih =>
    intro base mask q
    rw [applyMask_cons, ih]
    constructor
    · rintro (hb | ⟨j, hj, hq, hm⟩)
      · by_cases hm2 : mask % 2 = 1
        · rw [if_pos hm2, Nat.testBit_or, Bool.or_eq_true] at hb
          rcases hb with hb | hb
          · exact Or.inl hb
          · rw [Nat.testBit_two_pow, decide_eq_true_eq] at hb
            refine Or.inr ⟨0, Nat.succ_pos _, by simpa using hb, ?_⟩
            simp [Nat.testBit_zero, hm2]
        · rw [if_neg hm2] at hb
          exact Or.inl hb
      · refine Or.inr ⟨j + 1, Nat.succ_lt_succ hj, by simpa using hq, ?_⟩
        rw [Nat.testBit_add_one]
        exact hm
    · rintro (hb | ⟨j, hj, hq, hm⟩)
      · left
        by_cases hm2 : mask % 2 = 1
        · rw [if_pos hm2, Nat.testBit_or, hb]
          rfl
        · rw [if_neg hm2]
          exact hb
      · cases j with
        | zero =>
          left
          have hp : p = q := by simpa using hq
          have hm2 : mask % 2 = 1 := by simpa [Nat.testBit_zero] using hm
          rw [if_pos hm2, Nat.testBit_or, ← hp, Nat.testBit_two_pow_self]
          simp
        | succ j2 =>
          refine Or.inr ⟨j2, Nat.lt_of_succ_lt_succ hj, by simpa using hq, ?_⟩
          rw [← Nat.testBit_add_one]
          exact hm

lemma applyMask_lt (n : Nat) (free : List Nat) :
    ∀ base mask, base < 2 ^ n → (∀ p ∈ free, p < n) → applyMask base free mask < 2 ^ n := by
  induction free with
  | nil => intro base mask hb _; simpa [applyMask] using hb
  | cons p rest ih =>
    intro base mask hb hfree
    rw [applyMask_cons]
    refine ih _ _ ?_ fun x hx => hfree x (List.mem_cons_of_mem _ hx)
    by_cases hm2 : mask % 2 = 1
    · rw [if_pos hm2]
      exact Nat.or_lt_two_pow hb
        (Nat.pow_lt_pow_right (by omega) (hfree p (List.mem_cons_self _ _)))
    · rw [if_neg hm2]
      exact hb

lemma extractMask_lt (v : Nat) (free : List Nat) :
    extractMask v free < 2 ^ free.length := by
  induction free with
  | nil => simp [extractMask]
  | cons p rest ih =>
    simp only [extractMask, List.length_cons, Nat.pow_succ]
    by_cases hb : v.testBit p <;> simp [hb] <;> omega

lemma extractMask_testBit (v : Nat) (free : List Nat) :
    ∀ j, (h : j < free.length) →
      (extractMask v free).testBit j = v.testBit (free.get ⟨j, h⟩) := by
  induction free with
  | nil => intro j h; exact absurd h (by simp)
  | cons p rest ih =>
    intro j h
    cases j with
    | zero =>
      simp only [extractMask, List.get, Nat.testBit_zero]
      by_cases hb : v.testBit p <;>
        simp [hb, Nat.add_mul_mod_self_left]
    | succ j2 =>
      have h2 : j2 < rest.length := Nat.lt_of_succ_lt_succ h
      have hdiv : (extractMask v (p :: rest)).testBit (j2 + 1) =
          (extractMask v rest).testBit j2 := by
        rw [Nat.testBit_add_one]
        congr 1
        simp only [extractMask]
        by_cases hb : v.testBit p <;> simp [hb] <;> omega
      rw [hdiv, ih j2 h2]
      rfl

/-- Bits of `applyMask` at a free position read back the mask, provided the
free positions are distinct and the base has no bit there. -/
lemma applyMask_testBit_at_free (base : Nat) (free : List Nat) (nd : free.Nodup)
    (m j : Nat) (hj : j < free.length)
    (hbase : base.testBit (free.get ⟨j, hj⟩) = false) :
    (applyMask base free m).testBit (free.get ⟨j, hj⟩) = m.testBit j := by
  cases hm : m.testBit j with
  | true =>
    exact (applyMask_testBit free base m _).mpr (Or.inr ⟨j, hj, rfl, hm⟩)
  | false =>
    cases hL : (applyMask base free m).testBit (free.get ⟨j, hj⟩) with
    | false => rfl
    | true =>
      rcases (applyMask_testBit free base m _).mp hL with hb | ⟨j2, hj2, hq2, hm2⟩
      · rw [hbase] at hb
        exact absurd hb (by simp)
      · have : (⟨j2, hj2⟩ : Fin free.length) = ⟨j, hj⟩ :=
          (List.Nodup.get_inj_iff nd).mp hq2
        rw [Fin.mk.injEq] at this
        subst this
        rw [hm] at hm2
        exact absurd hm2 (by simp)

/-! Enumerator correctness for a valid implicant. -/

lemma base_val_free_bit_false (impl : List Char) (n : Nat) (hlen : impl.length = n)
    (q : Nat) (hq : q ∈ free_positions impl n 0) :
    (base_val impl n 0).testBit q = false := by
  cases hbit : (base_val impl n 0).testBit q with
  | false => rfl
  | true =>
    rcases (base_val_testBit impl n 0 q).mp hbit with ⟨j1, hj1, hc1, he1⟩
    rcases (free_positions_mem impl n 0 q).mp hq with ⟨j0, hj0, hc0, he0⟩
    have hjj : j1 = j0 := by omega
    subst hjj
    have : hj1 = hj0 := rfl
    subst this
    rw [hc1] at hc0
    exact absurd hc0 (by decide)

lemma valid_char_cases (impl : List Char) (hval : ∀ c ∈ impl, validChar c = true)
    (i : Nat) (h : i < impl.length) :
    impl.get ⟨i, h⟩ = '0' ∨ impl.get ⟨i, h⟩ = '1' ∨ impl.get ⟨i, h⟩ = '-' := by
  have := hval (impl.get ⟨i, h⟩) (List.get_mem impl i h)
  simp only [validChar, Bool.or_eq_true, decide_eq_true_eq] at this
  tauto

lemma mem_iter_iff_inCube (impl : List Char) (n : Nat) (hn : 0 < n)
    (hlen : impl.length = n) (hval : ∀ c ∈ impl, validChar c = true) (v : Nat) :
    v ∈ iter_implicant_minterms impl n ↔ inCube impl n v := by
  have hn0 : ¬ n = 0 := by omega
  have hfree_lt : ∀ p ∈ free_positions impl n 0, p < n :=
    fun p hp => free_positions_mem_lt impl n 0 p (by omega) hp
  have hbase_lt : base_val impl n 0 < 2 ^ n := base_val_lt impl n hn 0
  simp only [iter_implicant_minterms, if_neg hn0, List.mem_map, List.mem_range]
  constructor
  · rintro ⟨mask, hmask, rfl⟩
    refine ⟨applyMask_lt n _ _ mask hbase_lt hfree_lt, ?_⟩
    intro i h
    constructor
    · intro hc1
      exact (applyMask_testBit _ _ mask _).mpr
        (Or.inl ((base_val_testBit impl n 0 _).mpr ⟨i, h, hc1, by omega⟩))
    · intro hc0
      cases hbit : (applyMask (base_val impl n 0) (free_positions impl n 0) mask).testBit
          (n - 1 - i) with
      | false => rfl
      | true =>
        exfalso
        rcases (applyMask_testBit _ _ mask _).mp hbit with hb | ⟨j, hj, hq, _⟩
        · rcases (base_val_testBit impl n 0 _).mp hb with ⟨j1, hj1, hc1, he1⟩
          have hjj : j1 = i := by omega
          subst hjj
          rw [hc0] at hc1
          exact absurd hc1 (by decide)
        · have hmem := List.get_mem (free_positions impl n 0) j hj
          rcases (free_positions_mem impl n 0 _).mp hmem with ⟨j0, hj0, hcd, he⟩
          have hjj : j0 = i := by omega
          subst hjj
          rw [hc0] at hcd
          exact absurd hcd (by decide)
  · rintro ⟨hvlt, hagree⟩
    refine ⟨extractMask v (free_positions impl n 0), extractMask_lt v _, ?_⟩
    apply Nat.eq_of_testBit_eq
    intro q
    by_cases hqf : q ∈ free_positions impl n 0
    · rcases List.mem_iff_get.mp hqf with ⟨⟨j0, hj0⟩, hget⟩
      have hbase : (base_val impl n 0).testBit q = false :=
        base_val_free_bit_false impl n hlen q hqf
      rw [← hget]
      rw [applyMask_testBit_at_free _ _ (free_positions_nodup impl n 0 (by omega)) _ j0 hj0
        (by rwa [hget])]
      exact extractMask_testBit v _ j0 hj0
    · have hLbit : (applyMask (base_val impl n 0) (free_positions impl n 0)
          (extractMask v (free_positions impl n 0))).testBit q =
          (base_val impl n 0).testBit q := by
        cases hb : (base_val impl n 0).testBit q with
        | true =>
          exact (applyMask_testBit _ _ _ q).mpr (Or.inl hb)
        | false =>
          cases hL : (applyMask (base_val impl n 0) (free_positions impl n 0)
              (extractMask v (free_positions impl n 0))).testBit q with
          | false => rfl
          | true =>
            rcases (applyMask_testBit _ _ _ q).mp hL with hb2 | ⟨j, hj, hq2, _⟩
            · rw [hb] at hb2
              exact absurd hb2 (by simp)
            · exact absurd (hq2 ▸ List.get_mem (free_positions impl n 0) j hj) hqf
      rw [hLbit]
      by_cases hqn : q < n
      · have hi : n - 1 - q < impl.length := by omega
        have hniq : n - 1 - (n - 1 - q) = q := by omega
        rcases valid_char_cases impl hval (n - 1 - q) hi with h0 | h1 | hd
        · have hvb := (hagree (n - 1 - q) hi).2 h0
          rw [hniq] at hvb
          rw [hvb]
          cases hb : (base_val impl n 0).testBit q with
          | false => rfl
          | true =>
            rcases (base_val_testBit impl n 0 q).mp hb with ⟨j1, hj1, hc1, he1⟩
            have hjj : j1 = n - 1 - q := by omega
            subst hjj
            rw [h0] at hc1
            exact absurd hc1 (by decide)
        · have hvb := (hagree (n - 1 - q) hi).1 h1
          rw [hniq] at hvb
          rw [hvb]
          exact (base_val_testBit impl n 0 q).mpr ⟨n - 1 - q, hi, h1, by omega⟩
        · exact absurd ((free_positions_mem impl n 0 q).mpr ⟨n - 1 - q, hi, hd, by omega⟩) hqf
      · have h1 : (base_val impl n 0).testBit q = false :=
          Nat.testBit_lt_two_pow
            (lt_of_lt_of_le hbase_lt (Nat.pow_le_pow_right (by omega) (by omega)))
        have h2 : v.testBit q = false :=
          Nat.testBit_lt_two_pow
            (lt_of_lt_of_le hvlt (Nat.pow_le_pow_right (by omega) (by omega)))
        rw [h1, h2]

lemma iter_nodup (impl : List Char) (n : Nat) (hn : 0 < n)
    (hlen : impl.length = n) :
    (iter_implicant_minterms impl n).Nodup := by
  have hn0 : ¬ n = 0 := by omega
  simp only [iter_implicant_minterms, if_neg hn0]
  refine List.Nodup.map_on ?_ (List.nodup_range _)
  intro m1 h1 m2 h2 heq
  rw [List.mem_range] at h1 h2
  have nd := free_positions_nodup impl n 0 (by omega)
  apply Nat.eq_of_testBit_eq
  intro j
  by_cases hj : j < (free_positions impl n 0).length
  · have hbase : (base_val impl n 0).testBit ((free_positions impl n 0).get ⟨j, hj⟩) = false :=
      base_val_free_bit_false impl n hlen _ (List.get_mem _ j hj)
    have e1 := applyMask_testBit_at_free (base_val impl n 0) _ nd m1 j hj hbase
    have e2 := applyMask_testBit_at_free (base_val impl n 0) _ nd m2 j hj hbase
    rw [← e1, ← e2, heq]
  · have b1 : m1.testBit j = false :=
      Nat.testBit_lt_two_pow
        (lt_of_lt_of_le h1 (Nat.pow_le_pow_right (by omega) (by omega)))
    have b2 : m2.testBit j = false :=
      Nat.testBit_lt_two_pow
        (lt_of_lt_of_le h2 (Nat.pow_le_pow_right (by omega) (by omega)))
    rw [b1, b2]

/-- C1: for every valid implicant string of length `n_bit` over the alphabet
0, 1, dash, with `f` free positions, `iter_implicant_minterms` yields exactly `2 ^ f` minterms with
no duplicates, each in `[0, 2 ^ n_bit)`, and the set of yielded values equals
the mathematical cube of the implicant (string position 0 being the most
significant bit); for `n_bit = 0` the empty implicant yields exactly `[0]`. -/
theorem c1_enumerator_yields_cube (impl : List Char) (n_bit : Nat)
    (hlen : impl.length = n_bit) (hval : ∀ c ∈ impl, validChar c = true) :
    (iter_implicant_minterms impl n_bit).length =
        2 ^ impl.countP (fun c => decide (c = '-')) ∧
    (iter_implicant_minterms impl n_bit).Nodup ∧
    (∀ v ∈ iter_implicant_minterms impl n_bit, v < 2 ^ n_bit) ∧
    (∀ v, v ∈ iter_implicant_minterms impl n_bit ↔ inCube impl n_bit v) ∧
    (n_bit = 0 → iter_implicant_minterms impl n_bit = [0]) := by
  rcases Nat.eq_zero_or_pos n_bit with hz | hp
  · subst hz
    have himpl : impl = [] := List.length_eq_zero.mp hlen
    subst himpl
    have hiter : iter_implicant_minterms [] 0 = [0] := rfl
    refine ⟨by simp [hiter], by simp [hiter], ?_, ?_, fun _ => hiter⟩
    · intro v hv
      rw [hiter, List.mem_singleton] at hv
      omega
    · intro v
      rw [hiter, List.mem_singleton]
      unfold inCube
      constructor
      · rintro rfl
        exact ⟨by norm_num, fun i h => absurd h (by omega)⟩
      · rintro ⟨hlt, _⟩
        simp only [pow_zero] at hlt
        omega
  · have hn0 : ¬ n_bit = 0 := by omega
    refine ⟨?_, iter_nodup impl n_bit hp hlen, ?_, mem_iter_iff_inCube impl n_bit hp hlen hval,
      fun h => absurd h hn0⟩
    · simp only [iter_implicant_minterms, if_neg hn0, List.length_map, List.length_range,
        free_positions_length]
    · intro v hv
      exact ((mem_iter_iff_inCube impl n_bit hp hlen hval v).mp hv).1

/-- Witness for C1 at the concrete implicant "1-" with bit width 2. -/
theorem c1_enumerator_yields_cube_witness :
    ((['1', '-'] : List Char).length = 2 ∧
      ∀ c ∈ (['1', '-'] : List Char), validChar c = true) ∧
    ((iter_implicant_minterms ['1', '-'] 2).length =
        2 ^ (['1', '-'] : List Char).countP (fun c => decide (c = '-')) ∧
      (iter_implicant_minterms ['1', '-'] 2).Nodup ∧
      (∀ v ∈ iter_implicant_minterms ['1', '-'] 2, v < 2 ^ 2) ∧
      (∀ v, v ∈ iter_implicant_minterms ['1', '-'] 2 ↔ inCube ['1', '-'] 2 v) ∧
      (2 = 0 → iter_implicant_minterms ['1', '-'] 2 = [0])) :=
  ⟨⟨by decide, by decide⟩, c1_enumerator_yields_cube ['1', '-'] 2 (by decide) (by decide)⟩

/-! Lemmas relating the stateful loops of `main` to their randomness-free
companions. -/

lemma count_literals_chars_eq (impl : List Char) :
    ∀ c, count_literals_chars impl c = c + impl.countP (fun ch => ch = '0' || ch = '1') := by
  induction impl with
  | nil => intro c; simp [count_literals_chars]
  | cons ch rest ih =>
    intro c
    by_cases h : (ch = '0' || (ch = '1' : Bool)) = true
    · simp only [count_literals_chars, if_pos h, ih, List.countP_cons, h]
      simp
      omega
    · simp only [count_literals_chars, if_neg h, ih, List.countP_cons]
      rw [Bool.not_eq_true] at h
      simp [h]

lemma count_literals_go_eq (impls : List (List Char)) :
    ∀ c, count_literals_go impls c =
      c + (impls.map (fun impl => impl.countP (fun ch => ch = '0' || ch = '1'))).sum := by
  induction impls with
  | nil => intro c; simp [count_literals_go]
  | cons impl rest ih =>
    intro c
    simp only [count_literals_go, ih, count_literals_chars_eq, List.map_cons, List.sum_cons]
    omega

lemma count_literals_eq (impls : List (List Char)) :
    count_literals impls =
      (impls.map (fun impl => impl.countP (fun ch => ch = '0' || ch = '1'))).sum := by
  simp [count_literals, count_literals_go_eq]

lemma dictLookup_eq_none (key : List Char) :
    ∀ seen : List (List Char × Nat), dictLookup key seen = none ↔ key ∉ seen.map Prod.fst := by
  intro seen
  induction seen with
  | nil => simp [dictLookup]
  | cons kv rest ih =>
    obtain ⟨k2, v⟩ := kv
    by_cases hk : key = k2
    · subst hk
      simp [dictLookup]
    · simp [dictLookup, hk, ih]

lemma dup_loop_count (rnd : Nat → Nat) (k : Nat) :
    ∀ (impls : List (List Char)) idx seen dc ds pos,
      (dup_loop rnd k impls idx seen dc ds pos).1 =
        dc + dup_count_pure impls (seen.map Prod.fst) := by
  intro impls
  induction impls with
  | nil => intro idx seen dc ds pos; simp [dup_loop, dup_count_pure]
  | cons impl rest ih =>
    intro idx seen dc ds pos
    cases hlk : dictLookup impl seen with
    | some first =>
      have hmem : impl ∈ seen.map Prod.fst := by
        by_contra hnot
        rw [(dictLookup_eq_none impl seen).mpr hnot] at hlk
        exact Option.noConfusion hlk
      simp only [dup_loop, hlk, dup_count_pure, if_pos hmem, ih]
      omega
    | none =>
      have hmem : impl ∉ seen.map Prod.fst := (dictLookup_eq_none impl seen).mp hlk
      simp only [dup_loop, hlk, dup_count_pure, if_neg hmem, ih, List.map_cons]

lemma cov_inner_pure_eq (rnd : Nat → Nat) (k : Nat) (on_set union_allowed : List Nat) :
    ∀ (ms : List Nat) covered off sample pos,
      (cov_inner rnd k on_set union_allowed ms covered off sample pos).1 =
          (cov_inner_pure on_set union_allowed ms covered off).1 ∧
        (cov_inner rnd k on_set union_allowed ms covered off sample pos).2.1 =
          (cov_inner_pure on_set union_allowed ms covered off).2 := by
  intro ms
  induction ms with
  | nil => intro covered off sample pos; simp [cov_inner, cov_inner_pure]
  | cons m rest ih =>
    intro covered off sample pos
    by_cases hon : m ∈ on_set
    · simp only [cov_inner, cov_inner_pure, if_pos hon]
      exact ih _ _ _ _
    · by_cases hun : m ∈ union_allowed
      · simp only [cov_inner, cov_inner_pure, if_neg hon, if_pos hun]
        exact ih _ _ _ _
      · simp only [cov_inner, cov_inner_pure, if_neg hon, if_neg hun]
        exact ih _ _ _ _

lemma cov_loop_pure_eq (rnd : Nat → Nat) (k n_bit : Nat) (on_set union_allowed : List Nat) :
    ∀ (impls : List (List Char)) covered off sample pos,
      (cov_loop rnd k n_bit on_set union_allowed impls covered off sample pos).1 =
          (cov_loop_pure n_bit on_set union_allowed impls covered off).1 ∧
        (cov_loop rnd k n_bit on_set union_allowed impls covered off sample pos).2.1 =
          (cov_loop_pure n_bit on_set union_allowed impls covered off).2 := by
  intro impls
  induction impls with
  | nil => intro covered off sample pos; simp [cov_loop, cov_loop_pure]
  | cons impl rest ih =>
    intro covered off sample pos
    simp only [cov_loop, cov_loop_pure]
    rcases cov_inner_pure_eq rnd k on_set union_allowed
      (iter_implicant_minterms impl n_bit) covered off sample pos with ⟨h1, h2⟩
    rw [h1, h2]
    exact ih _ _ _ _

lemma unc_loop_sampled_count (rnd : Nat → Nat) (k : Nat) :
    ∀ (on_set : List Nat) covered cnt sample pos,
      (unc_loop_sampled rnd k on_set covered cnt sample pos).1 =
        unc_loop_plain on_set covered cnt := by
  intro on_set
  induction on_set with
  | nil => intro covered cnt sample pos; simp [unc_loop_sampled, unc_loop_plain]
  | cons m rest ih =>
    intro covered cnt sample pos
    by_cases hm : m ∈ covered
    · simp only [unc_loop_sampled, unc_loop_plain, if_pos hm]
      exact ih _ _ _ _
    · simp only [unc_loop_sampled, unc_loop_plain, if_neg hm]
      exact ih _ _ _ _

lemma unc_loop_plain_eq :
    ∀ (on_set covered : List Nat) cnt,
      unc_loop_plain on_set covered cnt =
        cnt + on_set.countP (fun m => decide (m ∉ covered)) := by
  intro on_set
  induction on_set with
  | nil => intro covered cnt; simp [unc_loop_plain]
  | cons m rest ih =>
    intro covered cnt
    by_cases hm : m ∈ covered
    · simp only [unc_loop_plain, if_pos hm, ih, List.countP_cons]
      simp [hm]
    · simp only [unc_loop_plain, if_neg hm, ih, List.countP_cons]
      simp [hm]
      omega

lemma cov_inner_pure_off (on_set union_allowed : List Nat) :
    ∀ (ms : List Nat) covered off,
      (cov_inner_pure on_set union_allowed ms covered off).2 =
        off + ms.countP (fun m => decide (m ∉ on_set ∧ m ∉ union_allowed)) := by
  intro ms
  induction ms with
  | nil => intro covered off; simp [cov_inner_pure]
  | cons m rest ih =>
    intro covered off
    by_cases hon : m ∈ on_set
    · simp only [cov_inner_pure, if_pos hon, ih, List.countP_cons]
      simp [hon]
    · by_cases hun : m ∈ union_allowed
      · simp only [cov_inner_pure, if_neg hon, if_pos hun, ih, List.countP_cons]
        simp [hun]
      · simp only [cov_inner_pure, if_neg hon, if_neg hun, ih, List.countP_cons]
        simp [hon, hun]
        omega

lemma cov_loop_pure_off (n_bit : Nat) (on_set union_allowed : List Nat) :
    ∀ (impls : List (List Char)) covered off,
      (cov_loop_pure n_bit on_set union_allowed impls covered off).2 =
        off + (impls.map (fun impl => (iter_implicant_minterms impl n_bit).countP
          (fun m => decide (m ∉ on_set ∧ m ∉ union_allowed)))).sum := by
  intro impls
  induction impls with
  | nil => intro covered off; simp [cov_loop_pure]
  | cons impl rest ih =>
    intro covered off
    simp only [cov_loop_pure, ih, cov_inner_pure_off, List.map_cons, List.sum_cons]
    omega

/-! Reservoir-sampling length invariants. -/

lemma reservoir_add_length {α : Type} (rnd : Nat → Nat) (pos : Nat) (sample : List α)
    (k t : Nat) (item : α) (h1 : sample.length < t) (h2 : sample.length ≤ k) :
    (reservoir_add rnd pos sample k t item).1.length ≤ t ∧
      (reservoir_add rnd pos sample k t item).1.length ≤ k := by
  unfold reservoir_add
  by_cases hk : k = 0
  · rw [if_pos hk]
    exact ⟨Nat.le_of_lt h1, h2⟩
  · rw [if_neg hk]
    by_cases ht : t ≤ k
    · rw [if_pos ht]
      simp only [List.length_append, List.length_singleton]
      omega
    · rw [if_neg ht]
      by_cases hj : rnd pos % t + 1 ≤ k
      · rw [if_pos hj]
        simp only [List.length_set]
        omega
      · rw [if_neg hj]
        exact ⟨Nat.le_of_lt h1, h2⟩

lemma reservoir_add_zero {α : Type} (rnd : Nat → Nat) (pos : Nat) (sample : List α)
    (t : Nat) (item : α) : reservoir_add rnd pos sample 0 t item = (sample, pos) := by
  simp [reservoir_add]

lemma dup_loop_sample_len (rnd : Nat → Nat) (k : Nat) :
    ∀ (impls : List (List Char)) idx seen dc ds pos, ds.length ≤ dc → ds.length ≤ k →
      (dup_loop rnd k impls idx seen dc ds pos).2.1.length ≤
          (dup_loop rnd k impls idx seen dc ds pos).1 ∧
        (dup_loop rnd k impls idx seen dc ds pos).2.1.length ≤ k := by
  intro impls
  induction impls with
  | nil =>
    intro idx seen dc ds pos h1 h2
    exact ⟨h1, h2⟩
  | cons impl rest ih =>
    intro idx seen dc ds pos h1 h2
    cases hlk : dictLookup impl seen with
    | some first =>
      simp only [dup_loop, hlk]
      rcases reservoir_add_length rnd pos ds k (dc + 1) (first, idx, impl)
        (by omega) h2 with ⟨hr1, hr2⟩
      exact ih _ _ _ _ _ hr1 hr2
    | none =>
      simp only [dup_loop, hlk]
      exact ih _ _ _ _ _ h1 h2

lemma cov_inner_sample_len (rnd : Nat → Nat) (k : Nat) (on_set union_allowed : List Nat) :
    ∀ (ms : List Nat) covered off sample pos, sample.length ≤ off → sample.length ≤ k →
      (cov_inner rnd k on_set union_allowed ms covered off sample pos).2.2.1.length ≤
          (cov_inner rnd k on_set union_allowed ms covered off sample pos).2.1 ∧
        (cov_inner rnd k on_set union_allowed ms covered off sample pos).2.2.1.length ≤ k := by
  intro ms
  induction ms with
  | nil =>
    intro covered off sample pos h1 h2
    exact ⟨h1, h2⟩
  | cons m rest ih =>
    intro covered off sample pos h1 h2
    by_cases hon : m ∈ on_set
    · simp only [cov_inner, if_pos hon]
      exact ih _ _ _ _ h1 h2
    · by_cases hun : m ∈ union_allowed
      · simp only [cov_inner, if_neg hon, if_pos hun]
        exact ih _ _ _ _ h1 h2
      · simp only [cov_inner, if_neg hon, if_neg hun]
        rcases reservoir_add_length rnd pos sample k (off + 1) m (by omega) h2 with ⟨hr1, hr2⟩
        exact ih _ _ _ _ hr1 hr2

lemma cov_loop_sample_len (rnd : Nat → Nat) (k n_bit : Nat) (on_set union_allowed : List Nat) :
    ∀ (impls : List (List Char)) covered off sample pos,
      sample.length ≤ off → sample.length ≤ k →
      (cov_loop rnd k n_bit on_set union_allowed impls covered off sample pos).2.2.1.length ≤
          (cov_loop rnd k n_bit on_set union_allowed impls covered off sample pos).2.1 ∧
        (cov_loop rnd k n_bit on_set union_allowed impls covered off sample pos).2.2.1.length
          ≤ k := by
  intro impls
  induction impls with
  | nil =>
    intro covered off sample pos h1 h2
    exact ⟨h1, h2⟩
  | cons impl rest ih =>
    intro covered off sample pos h1 h2
    simp only [cov_loop]
    rcases cov_inner_sample_len rnd k on_set union_allowed
      (iter_implicant_minterms impl n_bit) covered off sample pos h1 h2 with ⟨hr1, hr2⟩
    exact ih _ _ _ _ hr1 hr2

lemma unc_loop_sampled_sample_len (rnd : Nat → Nat) (k : Nat) :
    ∀ (on_set : List Nat) covered cnt sample pos,
      sample.length ≤ cnt → sample.length ≤ k →
      (unc_loop_sampled rnd k on_set covered cnt sample pos).2.1.length ≤
          (unc_loop_sampled rnd k on_set covered cnt sample pos).1 ∧
        (unc_loop_sampled rnd k on_set covered cnt sample pos).2.1.length ≤ k := by
  intro on_set
  induction on_set with
  | nil =>
    intro covered cnt sample pos h1 h2
    exact ⟨h1, h2⟩
  | cons m rest ih =>
    intro covered cnt sample pos h1 h2
    by_cases hm : m ∈ covered
    · simp only [unc_loop_sampled, if_pos hm]
      exact ih _ _ _ _ h1 h2
    · simp only [unc_loop_sampled, if_neg hm]
      rcases reservoir_add_length rnd pos sample k (cnt + 1) m (by omega) h2 with ⟨hr1, hr2⟩
      exact ih _ _ _ _ hr1 hr2

lemma dup_loop_zero_sample (rnd : Nat → Nat) :
    ∀ (impls : List (List Char)) idx seen dc ds pos,
      (dup_loop rnd 0 impls idx seen dc ds pos).2.1 = ds := by
  intro impls
  induction impls with
  | nil => intro idx seen dc ds pos; rfl
  | cons impl rest ih =>
    intro idx seen dc ds pos
    cases hlk : dictLookup impl seen with
    | some first => simp only [dup_loop, hlk, reservoir_add_zero]; exact ih _ _ _ _ _
    | none => simp only [dup_loop, hlk]; exact ih _ _ _ _ _

lemma cov_inner_zero_sample (rnd : Nat → Nat) (on_set union_allowed : List Nat) :
    ∀ (ms : List Nat) covered off sample pos,
      (cov_inner rnd 0 on_set union_allowed ms covered off sample pos).2.2.1 = sample := by
  intro ms
  induction ms with
  | nil => intro covered off sample pos; rfl
  | cons m rest ih =>
    intro covered off sample pos
    by_cases hon : m ∈ on_set
    · simp only [cov_inner, if_pos hon]
      exact ih _ _ _ _
    · by_cases hun : m ∈ union_allowed
      · simp only [cov_inner, if_neg hon, if_pos hun]
        exact ih _ _ _ _
      · simp only [cov_inner, if_neg hon, if_neg hun, reservoir_add_zero]
        exact ih _ _ _ _

lemma cov_loop_zero_sample (rnd : Nat → Nat) (n_bit : Nat) (on_set union_allowed : List Nat) :
    ∀ (impls : List (List Char)) covered off sample pos,
      (cov_loop rnd 0 n_bit on_set union_allowed impls covered off sample pos).2.2.1 =
        sample := by
  intro impls
  induction impls with
  | nil => intro covered off sample pos; rfl
  | cons impl rest ih =>
    intro covered off sample pos
    simp only [cov_loop]
    rw [ih]
    exact cov_inner_zero_sample rnd on_set union_allowed _ _ _ _ _

/-! Characterization of the fields of `run_checks`. -/

lemma cov_result_covered (rnd : Nat → Nat) (k n_bit : Nat) (on_set union_allowed : List Nat)
    (impls : List (List Char)) (pos : Nat) :
    (cov_result rnd k n_bit on_set union_allowed impls pos).1 =
      (cov_loop_pure n_bit on_set union_allowed (valid_implicants impls) [] 0).1 := by
  unfold cov_result
  by_cases hv : valid_implicants impls = []
  · rw [if_pos hv, hv]
    rfl
  · rw [if_neg hv]
    exact (cov_loop_pure_eq rnd k n_bit on_set union_allowed _ _ _ _ _).1

lemma cov_result_off (rnd : Nat → Nat) (k n_bit : Nat) (on_set union_allowed : List Nat)
    (impls : List (List Char)) (pos : Nat) :
    (cov_result rnd k n_bit on_set union_allowed impls pos).2.1 =
      (cov_loop_pure n_bit on_set union_allowed (valid_implicants impls) [] 0).2 := by
  unfold cov_result
  by_cases hv : valid_implicants impls = []
  · rw [if_pos hv, hv]
    rfl
  · rw [if_neg hv]
    exact (cov_loop_pure_eq rnd k n_bit on_set union_allowed _ _ _ _ _).2

lemma unc_result_count (rnd : Nat → Nat) (k : Nat) (on_set covered : List Nat) (pos : Nat) :
    (unc_result rnd k on_set covered pos).1 =
      on_set.countP (fun m => decide (m ∉ covered)) := by
  unfold unc_result
  by_cases hk : 0 < k
  · rw [if_pos hk]
    rw [unc_loop_sampled_count, unc_loop_plain_eq]
    omega
  · rw [if_neg hk]
    show unc_loop_plain on_set covered 0 = _
    rw [unc_loop_plain_eq]
    omega

lemma run_checks_lit_count (rnd : Nat → Nat) (n_bit : Nat) (on_set dc_set : List Nat)
    (impls : List (List Char)) (k : Nat) :
    (run_checks rnd n_bit on_set dc_set impls k).lit_count = count_literals impls := rfl

lemma run_checks_fail_lit (rnd : Nat → Nat) (n_bit : Nat) (on_set dc_set : List Nat)
    (impls : List (List Char)) (k : Nat) :
    (run_checks rnd n_bit on_set dc_set impls k).fail_literal_product =
      (decide (0 < n_bit) && decide (0 < on_set.length) &&
        decide (on_set.length * n_bit ≤ count_literals impls)) := rfl

lemma run_checks_dup_count (rnd : Nat → Nat) (n_bit : Nat) (on_set dc_set : List Nat)
    (impls : List (List Char)) (k : Nat) :
    (run_checks rnd n_bit on_set dc_set impls k).dup_count = dup_count_pure impls [] := by
  show (dup_loop rnd k impls 0 [] 0 [] 0).1 = dup_count_pure impls []
  rw [dup_loop_count]
  simp

lemma run_checks_covered (rnd : Nat → Nat) (n_bit : Nat) (on_set dc_set : List Nat)
    (impls : List (List Char)) (k : Nat) :
    (run_checks rnd n_bit on_set dc_set impls k).covered_on =
      (cov_loop_pure n_bit on_set (on_set ++ dc_set) (valid_implicants impls) [] 0).1 := by
  show (cov_result rnd k n_bit on_set (on_set ++ dc_set) impls
      (dup_loop rnd k impls 0 [] 0 [] 0).2.2).1 = _
  rw [cov_result_covered]

lemma run_checks_off (rnd : Nat → Nat) (n_bit : Nat) (on_set dc_set : List Nat)
    (impls : List (List Char)) (k : Nat) :
    (run_checks rnd n_bit on_set dc_set impls k).off_hit_count =
      ((valid_implicants impls).map (fun impl =>
        (iter_implicant_minterms impl n_bit).countP
          (fun m => decide (m ∉ on_set ∧ m ∉ on_set ++ dc_set)))).sum := by
  show (cov_result rnd k n_bit on_set (on_set ++ dc_set) impls
      (dup_loop rnd k impls 0 [] 0 [] 0).2.2).2.1 = _
  rw [cov_result_off, cov_loop_pure_off]
  omega

lemma run_checks_uncovered (rnd : Nat → Nat) (n_bit : Nat) (on_set dc_set : List Nat)
    (impls : List (List Char)) (k : Nat) :
    (run_checks rnd n_bit on_set dc_set impls k).uncovered_count =
      on_set.countP (fun m => decide
        (m ∉ (cov_loop_pure n_bit on_set (on_set ++ dc_set)
          (valid_implicants impls) [] 0).1)) := by
  show (unc_result rnd k on_set
      (cov_result rnd k n_bit on_set (on_set ++ dc_set) impls
        (dup_loop rnd k impls 0 [] 0 [] 0).2.2).1 _).1 = _
  rw [unc_result_count, cov_result_covered]

lemma run_checks_passed (rnd : Nat → Nat) (n_bit : Nat) (on_set dc_set : List Nat)
    (impls : List (List Char)) (k : Nat) :
    (run_checks rnd n_bit on_set dc_set impls k).passed =
      (decide ((run_checks rnd n_bit on_set dc_set impls k).dup_count = 0) &&
        decide ((run_checks rnd n_bit on_set dc_set impls k).uncovered_count = 0) &&
        decide ((run_checks rnd n_bit on_set dc_set impls k).off_hit_count = 0) &&
        !(run_checks rnd n_bit on_set dc_set impls k).fail_literal_product) := rfl

/-- C2: a validly parsed solution passes iff duplicateCount, uncoveredOnCount
and offSetHitCount are all zero and the literal bound was not exceeded, and
in quiet mode the program prints exactly "PASS <literalCount>" when it passes
and exactly "FAIL" otherwise. -/
theorem c2_pass_iff_and_quiet (rnd : Nat → Nat) (n_bit : Nat) (on_set dc_set : List Nat)
    (lines : List (List Char)) (k : Nat) (v : Verdict)
    (hok : run_main rnd n_bit on_set dc_set lines k = Except.ok v) :
    (v.passed = true ↔ v.dup_count = 0 ∧ v.uncovered_count = 0 ∧ v.off_hit_count = 0 ∧
      v.fail_literal_product = false) ∧
    run_quiet rnd n_bit on_set dc_set lines k =
      (if v.passed then ["PASS " ++ Nat.repr v.lit_count] else ["FAIL"], 0) := by
  have hv : v = run_checks rnd n_bit on_set dc_set (read_sop_file lines n_bit) k := by
    simp only [run_main] at hok
    cases hva : validate_all (read_sop_file lines n_bit) n_bit with
    | error e =>
      rw [hva] at hok
      exact Except.noConfusion hok
    | ok u =>
      rw [hva] at hok
      simpa using hok.symm
  constructor
  · rw [hv, run_checks_passed]
    simp only [Bool.and_eq_true, decide_eq_true_eq, Bool.not_eq_true']
    tauto
  · unfold run_quiet
    rw [hok]
    unfold quiet_output
    by_cases hp : v.passed = true
    · simp [hp]
    · rw [Bool.not_eq_true] at hp
      simp [hp]

/-- Witness for C2 at a concrete passing run: bit width 2, full on-set, the
single implicant "--". -/
theorem c2_pass_iff_and_quiet_witness :
    run_main (fun _ => 0) 2 [0, 1, 2, 3] [] [['-', '-']] 0 =
        Except.ok (run_checks (fun _ => 0) 2 [0, 1, 2, 3] [] [['-', '-']] 0) ∧
    (((run_checks (fun _ => 0) 2 [0, 1, 2, 3] [] [['-', '-']] 0).passed = true ↔
        (run_checks (fun _ => 0) 2 [0, 1, 2, 3] [] [['-', '-']] 0).dup_count = 0 ∧
        (run_checks (fun _ => 0) 2 [0, 1, 2, 3] [] [['-', '-']] 0).uncovered_count = 0 ∧
        (run_checks (fun _ => 0) 2 [0, 1, 2, 3] [] [['-', '-']] 0).off_hit_count = 0 ∧
        (run_checks (fun _ => 0) 2 [0, 1, 2, 3] [] [['-', '-']] 0).fail_literal_product
          = false) ∧
      run_quiet (fun _ => 0) 2 [0, 1, 2, 3] [] [['-', '-']] 0 =
        (if (run_checks (fun _ => 0) 2 [0, 1, 2, 3] [] [['-', '-']] 0).passed then
          ["PASS " ++ Nat.repr
            (run_checks (fun _ => 0) 2 [0, 1, 2, 3] [] [['-', '-']] 0).lit_count]
        else ["FAIL"], 0)) :=
  ⟨rfl, c2_pass_iff_and_quiet (fun _ => 0) 2 [0, 1, 2, 3] [] [['-', '-']] 0 _ rfl⟩

/-- C3: the literal count is the total number of 0 and 1 characters across
the implicants, and the bound check fails iff bitWidth > 0, the on-set is
non-empty, and literalCount is at least the on-set size times bitWidth
(equality already fails); an empty on-set always satisfies the bound. -/
theorem c3_literal_bound (rnd : Nat → Nat) (n_bit : Nat) (on_set dc_set : List Nat)
    (impls : List (List Char)) (k : Nat) (hnd : on_set.Nodup) :
    (run_checks rnd n_bit on_set dc_set impls k).lit_count =
      (impls.map (fun impl => impl.countP (fun ch => ch = '0' || ch = '1'))).sum ∧
    ((run_checks rnd n_bit on_set dc_set impls k).fail_literal_product = true ↔
      0 < n_bit ∧ 0 < on_set.length ∧
        on_set.length * n_bit ≤ (run_checks rnd n_bit on_set dc_set impls k).lit_count) ∧
    (on_set.length = 0 →
      (run_checks rnd n_bit on_set dc_set impls k).fail_literal_product = false) := by
  refine ⟨by rw [run_checks_lit_count, count_literals_eq], ?_, ?_⟩
  · rw [run_checks_fail_lit, run_checks_lit_count]
    simp only [Bool.and_eq_true, decide_eq_true_eq]
    tauto
  · intro h0
    rw [run_checks_fail_lit]
    simp [h0]

/-- Witness for C3: bit width 2, on-set of size 1, single implicant "11"
whose literal count 2 equals the bound 1 * 2, so the bound check fails. -/
theorem c3_literal_bound_witness :
    ([0] : List Nat).Nodup ∧
    ((run_checks (fun _ => 0) 2 [0] [] [['1', '1']] 0).lit_count =
      ([[('1' : Char), '1']].map
        (fun impl => impl.countP (fun ch => ch = '0' || ch = '1'))).sum ∧
    ((run_checks (fun _ => 0) 2 [0] [] [['1', '1']] 0).fail_literal_product = true ↔
      0 < 2 ∧ 0 < ([0] : List Nat).length ∧
        ([0] : List Nat).length * 2 ≤
          (run_checks (fun _ => 0) 2 [0] [] [['1', '1']] 0).lit_count) ∧
    (([0] : List Nat).length = 0 →
      (run_checks (fun _ => 0) 2 [0] [] [['1', '1']] 0).fail_literal_product = false)) :=
  ⟨by decide, c3_literal_bound (fun _ => 0) 2 [0] [] [['1', '1']] 0 (by decide)⟩

/-- C5: offSetHitCount is the total number of enumeration events over the
valid implicants whose minterm is in neither the on-set nor the
dont-care set (counted once per event); concretely, for bit width 2,
on-set consisting of minterm 0 and the single implicant "--",
offSetHitCount = 3 and the verdict is FAIL. -/
theorem c5_off_set_hits (rnd : Nat → Nat) (n_bit : Nat) (on_set dc_set : List Nat)
    (impls : List (List Char)) (k : Nat) :
    (run_checks rnd n_bit on_set dc_set impls k).off_hit_count =
      ((valid_implicants impls).map (fun impl =>
        (iter_implicant_minterms impl n_bit).countP
          (fun m => decide (m ∉ on_set ∧ m ∉ dc_set)))).sum ∧
    (run_checks rnd 2 [0] [] [['-', '-']] 0).off_hit_count = 3 ∧
    (run_checks rnd 2 [0] [] [['-', '-']] 0).passed = false := by
  refine ⟨?_, rfl, rfl⟩
  rw [run_checks_off]
  congr 1
  refine List.map_congr_left fun impl _ => ?_
  refine List.countP_congr fun m _ => ?_
  simp only [decide_eq_true_eq, List.mem_append]
  tauto

/-- C6: uncoveredOnCount equals the number of on-set members outside the
covered set, and its value is independent of the sample limit (zero or
positive) and of the random stream. -/
theorem c6_uncovered_exact (rnd rnd2 : Nat → Nat) (n_bit : Nat) (on_set dc_set : List Nat)
    (impls : List (List Char)) (k k2 : Nat) :
    (run_checks rnd n_bit on_set dc_set impls k).uncovered_count =
      on_set.countP (fun m => decide
        (m ∉ (run_checks rnd n_bit on_set dc_set impls k).covered_on)) ∧
    (run_checks rnd n_bit on_set dc_set impls k).uncovered_count =
      (run_checks rnd2 n_bit on_set dc_set impls k2).uncovered_count := by
  constructor
  · rw [run_checks_uncovered, run_checks_covered]
  · rw [run_checks_uncovered, run_checks_uncovered]

/-- C7: a line that is blank after trimming is recorded as the empty
implicant exactly when the bit width is 0; for positive bit width it is
skipped and contributes nothing. -/
theorem c7_blank_line (ln : List Char) (rest : List (List Char)) (n_bit : Nat)
    (hblank : pyStrip ln = []) :
    (n_bit = 0 → read_sop_file (ln :: rest) n_bit = [] :: read_sop_file rest n_bit) ∧
    (0 < n_bit → read_sop_file (ln :: rest) n_bit = read_sop_file rest n_bit) := by
  constructor
  · intro h
    subst h
    simp [read_sop_file, hblank]
  · intro h
    have hne : ¬ n_bit = 0 := by omega
    simp [read_sop_file, hblank, hne]

/-- Witness for C7 at a concrete blank line (one space), bit width 1. -/
theorem c7_blank_line_witness :
    pyStrip [' '] = [] ∧
    ((1 = 0 → read_sop_file ([' '] :: [['1']]) 1 = [] :: read_sop_file [['1']] 1) ∧
      (0 < 1 → read_sop_file ([' '] :: [['1']]) 1 = read_sop_file [['1']] 1)) :=
  ⟨by decide, c7_blank_line [' '] [['1']] 1 (by decide)⟩

lemma validate_all_error (n_bit : Nat) :
    ∀ (impls : List (List Char)) (i : Nat) (hi : i < impls.length) (e : String),
      validate_implicant (impls.get ⟨i, hi⟩) n_bit = Except.error e →
      (∀ j (hj : j < i),
        validate_implicant (impls.get ⟨j, lt_trans hj hi⟩) n_bit = Except.ok ()) →
      validate_all impls n_bit = Except.error e := by
  intro impls
  induction impls with
  | nil =>
    intro i hi
    exact absurd hi (by simp)
  | cons impl rest ih =>
    intro i hi e hbad hgood
    cases i with
    | zero =>
      simp only [List.get] at hbad
      simp [validate_all, hbad]
    | succ i2 =>
      have h0 : validate_implicant impl n_bit = Except.ok () := by
        have := hgood 0 (Nat.succ_pos i2)
        simpa using this
      have hi2 : i2 < rest.length := Nat.lt_of_succ_lt_succ hi
      simp only [validate_all, h0]
      exact ih i2 hi2 e (by simpa using hbad)
        fun j hj => by simpa using hgood (j + 1) (Nat.succ_lt_succ hj)

/-- C8: when some parsed implicant is invalid, the run fails with the
validation error of the first violation before any correctness check: the
engine produces no verdict, nothing reaches stdout, and the exit code is
non-zero with the error carried on the error channel. -/
theorem c8_fail_fast (rnd : Nat → Nat) (n_bit : Nat) (on_set dc_set : List Nat)
    (lines : List (List Char)) (k : Nat) (i : Nat) (e : String)
    (hi : i < (read_sop_file lines n_bit).length)
    (hbad : validate_implicant ((read_sop_file lines n_bit).get ⟨i, hi⟩) n_bit =
      Except.error e)
    (hgood : ∀ j (hj : j < i),
      validate_implicant ((read_sop_file lines n_bit).get ⟨j, lt_trans hj hi⟩) n_bit =
        Except.ok ()) :
    run_main rnd n_bit on_set dc_set lines k = Except.error e ∧
    run_quiet rnd n_bit on_set dc_set lines k = ([], 1) := by
  have hva : validate_all (read_sop_file lines n_bit) n_bit = Except.error e :=
    validate_all_error n_bit (read_sop_file lines n_bit) i hi e hbad hgood
  have hmain : run_main rnd n_bit on_set dc_set lines k = Except.error e := by
    simp only [run_main, hva]
  refine ⟨hmain, ?_⟩
  unfold run_quiet
  rw [hmain]

/-- Witness for C8: bit width 1 and the single SOP line "2", whose character
is illegal. -/
theorem c8_fail_fast_witness :
    (0 < (read_sop_file [['2']] 1).length ∧
      validate_implicant ((read_sop_file [['2']] 1).get ⟨0, by decide⟩) 1 =
        Except.error ("illegal character in implicant: " ++ String.mk ['2'])) ∧
    (run_main (fun _ => 0) 1 [0] [] [['2']] 0 =
        Except.error ("illegal character in implicant: " ++ String.mk ['2']) ∧
      run_quiet (fun _ => 0) 1 [0] [] [['2']] 0 = ([], 1)) :=
  ⟨⟨by decide, rfl⟩,
    c8_fail_fast (fun _ => 0) 1 [0] [] [['2']] 0 0 _ (by decide) rfl
      fun j hj => absurd hj (Nat.not_lt_zero j)⟩

/-- C9: every diagnostic sample list of the verdict has length at most the
sample cap k, and with k = 0 no example is retained at all. -/
theorem c9_sample_cap (rnd : Nat → Nat) (n_bit : Nat) (on_set dc_set : List Nat)
    (impls : List (List Char)) (k : Nat) :
    (run_checks rnd n_bit on_set dc_set impls k).dup_sample.length ≤ k ∧
    (run_checks rnd n_bit on_set dc_set impls k).off_hit_sample.length ≤ k ∧
    (run_checks rnd n_bit on_set dc_set impls k).uncovered_sample.length ≤ k ∧
    (k = 0 → (run_checks rnd n_bit on_set dc_set impls k).dup_sample = [] ∧
      (run_checks rnd n_bit on_set dc_set impls k).off_hit_sample = [] ∧
      (run_checks rnd n_bit on_set dc_set impls k).uncovered_sample = []) := by
  refine ⟨?_, ?_, ?_, ?_⟩
  · show (dup_loop rnd k impls 0 [] 0 [] 0).2.1.length ≤ k
    exact (dup_loop_sample_len rnd k impls 0 [] 0 [] 0 (by simp) (by simp)).2
  · show (cov_result rnd k n_bit on_set (on_set ++ dc_set) impls
      (dup_loop rnd k impls 0 [] 0 [] 0).2.2).2.2.1.length ≤ k
    unfold cov_result
    by_cases hv : valid_implicants impls = []
    · rw [if_pos hv]
      simp
    · rw [if_neg hv]
      exact (cov_loop_sample_len rnd k n_bit on_set (on_set ++ dc_set)
        (valid_implicants impls) [] 0 [] _ (by simp) (by simp)).2
  · show (unc_result rnd k on_set
      (cov_result rnd k n_bit on_set (on_set ++ dc_set) impls
        (dup_loop rnd k impls 0 [] 0 [] 0).2.2).1
      (cov_result rnd k n_bit on_set (on_set ++ dc_set) impls
        (dup_loop rnd k impls 0 [] 0 [] 0).2.2).2.2.2).2.1.length ≤ k
    unfold unc_result
    by_cases hk : 0 < k
    · rw [if_pos hk]
      exact (unc_loop_sampled_sample_len rnd k on_set _ 0 [] _ (by simp) (by simp)).2
    · rw [if_neg hk]
      simp
  · intro hk
    subst hk
    refine ⟨?_, ?_, ?_⟩
    · show (dup_loop rnd 0 impls 0 [] 0 [] 0).2.1 = []
      exact dup_loop_zero_sample rnd impls 0 [] 0 [] 0
    · show (cov_result rnd 0 n_bit on_set (on_set ++ dc_set) impls
        (dup_loop rnd 0 impls 0 [] 0 [] 0).2.2).2.2.1 = []
      unfold cov_result
      by_cases hv : valid_implicants impls = []
      · rw [if_pos hv]
      · rw [if_neg hv]
        exact cov_loop_zero_sample rnd n_bit on_set (on_set ++ dc_set)
          (valid_implicants impls) [] 0 [] _
    · show (unc_result rnd 0 on_set
        (cov_result rnd 0 n_bit on_set (on_set ++ dc_set) impls
          (dup_loop rnd 0 impls 0 [] 0 [] 0).2.2).1
        (cov_result rnd 0 n_bit on_set (on_set ++ dc_set) impls
          (dup_loop rnd 0 impls 0 [] 0 [] 0).2.2).2.2.2).2.1 = []
      unfold unc_result
      rw [if_neg (by omega)]

/-- Witness for C9 at a concrete run with duplicates, off-set hits and an
uncovered on-set member, cap 0. -/
theorem c9_sample_cap_witness :
    (run_checks (fun _ => 0) 1 [0] [] [['-'], ['-']] 0).dup_sample.length ≤ 0 ∧
    (run_checks (fun _ => 0) 1 [0] [] [['-'], ['-']] 0).off_hit_sample.length ≤ 0 ∧
    (run_checks (fun _ => 0) 1 [0] [] [['-'], ['-']] 0).uncovered_sample.length ≤ 0 ∧
    (0 = 0 → (run_checks (fun _ => 0) 1 [0] [] [['-'], ['-']] 0).dup_sample = [] ∧
      (run_checks (fun _ => 0) 1 [0] [] [['-'], ['-']] 0).off_hit_sample = [] ∧
      (run_checks (fun _ => 0) 1 [0] [] [['-'], ['-']] 0).uncovered_sample = []) :=
  c9_sample_cap (fun _ => 0) 1 [0] [] [['-'], ['-']] 0

/-- C10: two runs identical except for the random stream produce the same
literal count, duplicate count, uncovered count, off-set hit count, bound
flag and verdict, hence identical quiet and summary outputs. -/
theorem c10_deterministic_counts (rnd rnd2 : Nat → Nat) (n_bit : Nat)
    (on_set dc_set : List Nat) (lines : List (List Char)) (impls : List (List Char))
    (k : Nat) :
    ((run_checks rnd n_bit on_set dc_set impls k).lit_count =
        (run_checks rnd2 n_bit on_set dc_set impls k).lit_count ∧
      (run_checks rnd n_bit on_set dc_set impls k).dup_count =
        (run_checks rnd2 n_bit on_set dc_set impls k).dup_count ∧
      (run_checks rnd n_bit on_set dc_set impls k).uncovered_count =
        (run_checks rnd2 n_bit on_set dc_set impls k).uncovered_count ∧
      (run_checks rnd n_bit on_set dc_set impls k).off_hit_count =
        (run_checks rnd2 n_bit on_set dc_set impls k).off_hit_count ∧
      (run_checks rnd n_bit on_set dc_set impls k).fail_literal_product =
        (run_checks rnd2 n_bit on_set dc_set impls k).fail_literal_product ∧
      (run_checks rnd n_bit on_set dc_set impls k).passed =
        (run_checks rnd2 n_bit on_set dc_set impls k).passed) ∧
    run_quiet rnd n_bit on_set dc_set lines k =
      run_quiet rnd2 n_bit on_set dc_set lines k ∧
    summary_output n_bit on_set dc_set impls (run_checks rnd n_bit on_set dc_set impls k) =
      summary_output n_bit on_set dc_set impls
        (run_checks rnd2 n_bit on_set dc_set impls k) := by
  have hlit : ∀ im : List (List Char),
      (run_checks rnd n_bit on_set dc_set im k).lit_count =
      (run_checks rnd2 n_bit on_set dc_set im k).lit_count := by
    intro im
    rw [run_checks_lit_count, run_checks_lit_count]
  have hdup : ∀ im : List (List Char),
      (run_checks rnd n_bit on_set dc_set im k).dup_count =
      (run_checks rnd2 n_bit on_set dc_set im k).dup_count := by
    intro im
    rw [run_checks_dup_count, run_checks_dup_count]
  have hunc : ∀ im : List (List Char),
      (run_checks rnd n_bit on_set dc_set im k).uncovered_count =
      (run_checks rnd2 n_bit on_set dc_set im k).uncovered_count := by
    intro im
    rw [run_checks_uncovered, run_checks_uncovered]
  have hoff : ∀ im : List (List Char),
      (run_checks rnd n_bit on_set dc_set im k).off_hit_count =
      (run_checks rnd2 n_bit on_set dc_set im k).off_hit_count := by
    intro im
    rw [run_checks_off, run_checks_off]
  have hfail : ∀ im : List (List Char),
      (run_checks rnd n_bit on_set dc_set im k).fail_literal_product =
      (run_checks rnd2 n_bit on_set dc_set im k).fail_literal_product := by
    intro im
    rw [run_checks_fail_lit, run_checks_fail_lit]
  have hpassed : ∀ im : List (List Char),
      (run_checks rnd n_bit on_set dc_set im k).passed =
      (run_checks rnd2 n_bit on_set dc_set im k).passed := by
    intro im
    rw [run_checks_passed, run_checks_passed, hdup im, hunc im, hoff im, hfail im]
  refine ⟨⟨hlit impls, hdup impls, hunc impls, hoff impls, hfail impls, hpassed impls⟩,
    ?_, ?_⟩
  · unfold run_quiet
    simp only [run_main]
    cases hva : validate_all (read_sop_file lines n_bit) n_bit with
    | error e => rfl
    | ok u =>
      show ([quiet_output (run_checks rnd n_bit on_set dc_set
          (read_sop_file lines n_bit) k)], 0) =
        ([quiet_output (run_checks rnd2 n_bit on_set dc_set
          (read_sop_file lines n_bit) k)], 0)
      unfold quiet_output
      rw [hpassed (read_sop_file lines n_bit), hlit (read_sop_file lines n_bit)]
  · unfold summary_output
    rw [hpassed impls, hlit impls]

/-- C4 (divergence of the code from the claim): for bit width 0, on-set
consisting of minterm 0 and the solution consisting of the single empty
implicant, validation accepts the solution and the enumerator itself would
yield minterm 0, but the coverage phase filters the empty implicant out
(Python truthiness of the empty string), so no minterm is marked covered:
uncoveredOnCount = 1 and the verdict is FAIL. -/
theorem c4_zero_width_uncovered :
    validate_all (read_sop_file [[]] 0) 0 = Except.ok () ∧
    read_sop_file [[]] 0 = [[]] ∧
    iter_implicant_minterms [] 0 = [0] ∧
    valid_implicants [[]] = [] ∧
    (run_checks (fun _ => 0) 0 [0] [] [[]] 0).covered_on = [] ∧
    (run_checks (fun _ => 0) 0 [0] [] [[]] 0).uncovered_count = 1 ∧
    (run_checks (fun _ => 0) 0 [0] [] [[]] 0).passed = false ∧
    run_quiet (fun _ => 0) 0 [0] [] [[]] 0 = (["FAIL"], 0) := by
  refine ⟨rfl, rfl, rfl, rfl, rfl, rfl, rfl, rfl⟩

end SopChecker
